import Mathlib

/-!
Golang_Websocket: echo server and heartbeat client.

A shallow embedding of `server/main.go` (`echo`) and `client/main.go` (`main`, its reader
goroutine and its control loop).  Every blocking call on the outside world (`Upgrade`, `Dial`,
`ReadMessage`, `WriteMessage`, the two `select` statements) takes its outcome from an
environment record: the k-th call of a kind gets the k-th answer.  A run produces the list of
events the goroutine performed, in program order, and a flag telling whether the goroutine has
returned.  Loops that the source writes as `for { ... }` are run for a given number of
iterations (`fuel`); a run that used up its iterations has the flag `false` and its trace is the
trace so far.
-/

namespace Websocket

/-! ## Values shared by both programs -/

/-- A Go `error` value that is not nil. -/
abbrev Err := String

/-- A Go `[]byte`. -/
abbrev Bytes := List UInt8

/-- A Go `time.Time`, in nanoseconds. -/
abbrev Time := Nat

/-- Constant `websocket.TextMessage` of gorilla/websocket (RFC 6455 opcode 1). -/
def TextMessage : Int := 1

/-- Constant `websocket.BinaryMessage` of gorilla/websocket (RFC 6455 opcode 2). -/
def BinaryMessage : Int := 2

/-- Constant `websocket.CloseMessage` of gorilla/websocket (RFC 6455 opcode 8). -/
def CloseMessage : Int := 8

/-- Constant `websocket.CloseNormalClosure` of gorilla/websocket (RFC 6455 status 1000). -/
def CloseNormalClosure : Int := 1000

/-- Constant `time.Second`, in nanoseconds. -/
def Second : Nat := 1000000000

/-- The conversion `[]byte(s)` of a Go string: its UTF-8 bytes. -/
def stringBytes (s : String) : Bytes := s.toUTF8.data.toList

/-- Library functions the client calls, taken as parameters:
`websocket.FormatCloseMessage(closeCode, text)` and `t.String()` of `time.Time`. -/
structure Lib where
  FormatCloseMessage : Int → String → Bytes
  timeString : Time → String

/-- Result of `c.ReadMessage()`: `(mt, message, nil)` or `(_, _, err)` with `err != nil`. -/
inductive ReadResult where
  | ok (mt : Int) (message : Bytes)
  | err (e : Err)
  deriving DecidableEq, Repr

/-- A line handed to the `log` package. -/
inductive LogLine where
  /-- `log.Println(s)` with a literal string. -/
  | text (s : String)
  /-- `log.Println(pfx, err)`, `log.Print(pfx, err)` or `log.Fatal(pfx, err)`. -/
  | err (pfx : String) (e : Err)
  /-- `log.Printf("recv: %s", message)`. -/
  | recv (message : Bytes)
  /-- `log.Printf("connecting to %s", u.String())` for the URL `ws://host/echo`. -/
  | connecting (host : String)
  deriving DecidableEq, Repr

/-- One evaluation of the client's outer `select` (client/main.go:70): the case that was taken,
together with what else was ready at that moment.  Go takes a case only if its channel
operation can proceed, and when several can proceed it takes any one of them; so each
constructor is a case that is ready, and the other fields say whether the remaining channels
were ready as well. -/
inductive Select where
  /-- `case <-done:` taken; `tick` is the value waiting in `ticker.C`, if any. -/
  | done (tick : Option Time) (interrupt : Bool)
  /-- `case t := <-ticker.C:` taken with value `t`; `done` tells whether `done` was closed. -/
  | tick (t : Time) (done : Bool) (interrupt : Bool)
  /-- `case <-interrupt:` taken. -/
  | interrupt (done : Bool) (tick : Option Time)
  deriving DecidableEq, Repr

/-- Whether the channel `done` was closed when the `select` was evaluated. -/
def Select.doneReady : Select → Bool
  | .done _ _ => true
  | .tick _ d _ => d
  | .interrupt d _ => d

/-- Whether a value was waiting in `ticker.C` when the `select` was evaluated. -/
def Select.tickReady : Select → Bool
  | .done t _ => t.isSome
  | .tick _ _ _ => true
  | .interrupt _ t => t.isSome

/-- Whether a signal was waiting in `interrupt` when the `select` was evaluated. -/
def Select.interruptReady : Select → Bool
  | .done _ i => i
  | .tick _ _ i => i
  | .interrupt _ _ => true

/-- The case taken by the client's inner `select` (client/main.go:94). -/
inductive WaitCase where
  | done
  | timeout
  deriving DecidableEq, Repr

/-- What a goroutine does, one event per call or statement with an outside effect. -/
inductive Event where
  /-- `upgrader.Upgrade(w, r, nil)` with its error (`none` is nil). -/
  | upgrade (r : Option Err)
  /-- `websocket.DefaultDialer.Dial(u.String(), nil)` with its error. -/
  | dial (r : Option Err)
  /-- `c.ReadMessage()` with its result. -/
  | read (r : ReadResult)
  /-- `c.WriteMessage(mt, p)` with its error. -/
  | write (mt : Int) (p : Bytes) (r : Option Err)
  /-- `c.Close()`. -/
  | close
  /-- A call of the `log` package. -/
  | log (l : LogLine)
  /-- The `os.Exit(1)` at the end of `log.Fatal`. -/
  | exit
  /-- The `go func() { ... }()` statement that starts the reader. -/
  | go
  /-- `time.NewTicker(d)`. -/
  | newTicker (d : Nat)
  /-- `ticker.Stop()`. -/
  | tickerStop
  /-- The outer `select` resolved. -/
  | select (s : Select)
  /-- The inner `select` resolved after `elapsed` nanoseconds. -/
  | wait (c : WaitCase) (elapsed : Nat)
  /-- `close(done)`. -/
  | closeDone
  deriving DecidableEq, Repr

/-- A trace and whether the goroutine has returned. -/
abbrev Run := List Event × Bool

/-! ## server/main.go -/

namespace Server

/-- The outside world of one call of `echo`. -/
structure Env where
  /-- Error of `upgrader.Upgrade`. -/
  upgrade : Option Err
  /-- Result of the k-th `ReadMessage`, counting from 0. -/
  reads : Nat → ReadResult
  /-- Error of the k-th `WriteMessage`, counting from 0. -/
  writes : Nat → Option Err

/-- The `for` loop of `echo` (server/main.go:29-44), from its k-th iteration on. -/
def echoLoop (env : Env) : Nat → Nat → Run
  | 0, _ => ([], false)
  | fuel + 1, k =>
    match env.reads k with
    | .err e => ([.read (.err e), .log (.err "read:" e)], true)
    | .ok mt message =>
      match env.writes k with
      | some e =>
        ([.read (.ok mt message), .log (.recv message), .write mt message (some e),
          .log (.err "write:" e)], true)
      | none =>
        let rest := echoLoop env fuel (k + 1)
        (.read (.ok mt message) :: .log (.recv message) :: .write mt message none :: rest.1,
          rest.2)

/-- The handler `echo` (server/main.go:17-45).  The deferred `c.Close()` runs when the
function returns after the loop. -/
def echo (env : Env) (fuel : Nat) : Run :=
  match env.upgrade with
  | some e => ([.upgrade (some e), .log (.err "upgrade:" e)], true)
  | none =>
    let body := echoLoop env fuel 0
    if body.2 then (.upgrade none :: (body.1 ++ [.close]), true)
    else (.upgrade none :: body.1, false)

/-- The exchange of the scenario: the peer sends the text messages "hello", "foo" and ""
and then closes, and every write succeeds. -/
def demoEnv : Env where
  upgrade := none
  reads := fun k =>
    match k with
    | 0 => .ok TextMessage [104, 101, 108, 108, 111]
    | 1 => .ok TextMessage [102, 111, 111]
    | 2 => .ok TextMessage []
    | _ => .err "websocket: close 1000 (normal)"
  writes := fun _ => none

/-- A peer whose second message cannot be written back. -/
def brokenPipeEnv : Env where
  upgrade := none
  reads := fun _ => .ok BinaryMessage [1, 2, 3]
  writes := fun k => if k = 1 then some "write: broken pipe" else none

end Server

/-! ## client/main.go -/

namespace Client

/-- The outside world of one run of the client. -/
structure Env where
  /-- Value of the flag `addr`. -/
  addr : String
  /-- Error of `websocket.DefaultDialer.Dial`. -/
  dial : Option Err
  /-- Result of the k-th `ReadMessage` of the reader goroutine, counting from 0. -/
  reads : Nat → ReadResult
  /-- Outcome of the k-th evaluation of the outer `select`, counting from 0.  The ticker
  fires every five seconds, so this `select` always resolves. -/
  selects : Nat → Select
  /-- Error of the k-th `WriteMessage` of the main goroutine, counting from 0. -/
  writes : Nat → Option Err
  /-- Nanoseconds from the start of the inner `select` until `done` is closed: `some 0` when it
  is closed already, `none` when the reader never closes it. -/
  doneAfter : Option Nat
  /-- Case the inner `select` takes when `done` and the timer become ready at the same instant. -/
  tie : WaitCase

/-- The reader goroutine (client/main.go:46-58), from its k-th read on.  The deferred
`close(done)` runs when the goroutine returns. -/
def reader (env : Env) : Nat → Nat → Run
  | 0, _ => ([], false)
  | fuel + 1, k =>
    match env.reads k with
    | .err e => ([.read (.err e), .log (.err "read:" e), .closeDone], true)
    | .ok mt message =>
      let rest := reader env fuel (k + 1)
      (.read (.ok mt message) :: .log (.recv message) :: rest.1, rest.2)

/-- The events of the reader for a list of messages it receives: per message one
`ReadMessage` that returns it and one `log.Printf("recv: %s", message)`. -/
def readEvents : List (Int × Bytes) → List Event
  | [] => []
  | m :: ms => .read (.ok m.1 m.2) :: .log (.recv m.2) :: readEvents ms

/-- The inner `select` (client/main.go:94-101) on `done` and `time.After(10 * time.Second)`:
it resolves as soon as one of the two channels is ready, and gives the case taken and the
time waited. -/
def wait (doneAfter : Option Nat) (tie : WaitCase) : WaitCase × Nat :=
  match doneAfter with
  | none => (.timeout, 10 * Second)
  | some d =>
    if d < 10 * Second then (.done, d)
    else if d = 10 * Second then (tie, 10 * Second)
    else (.timeout, 10 * Second)

/-- The line logged after the inner `select`. -/
def waitLog : WaitCase → LogLine
  | .done => .text "<-done"
  | .timeout => .text "<-time"

/-- The `for { select { ... } }` loop of `main` (client/main.go:69-104), from its k-th
`select` and the w-th `WriteMessage` of the main goroutine on. -/
def controlLoop (lib : Lib) (env : Env) : Nat → Nat → Nat → Run
  | 0, _, _ => ([], false)
  | fuel + 1, k, w =>
    match env.selects k with
    | .done tk i => ([.select (.done tk i)], true)
    | .tick t d i =>
      let p := stringBytes (lib.timeString t)
      match env.writes w with
      | some e =>
        ([.select (.tick t d i), .log (.text "<-ticker.C"), .write TextMessage p (some e),
          .log (.err "write:" e)], true)
      | none =>
        let rest := controlLoop lib env fuel (k + 1) (w + 1)
        (.select (.tick t d i) :: .log (.text "<-ticker.C") :: .write TextMessage p none ::
          rest.1, rest.2)
    | .interrupt d tk =>
      let p := lib.FormatCloseMessage CloseNormalClosure ""
      match env.writes w with
      | some e =>
        ([.select (.interrupt d tk), .log (.text "interrupt"), .write CloseMessage p (some e),
          .log (.err "write close:" e)], true)
      | none =>
        let r := wait env.doneAfter env.tie
        ([.select (.interrupt d tk), .log (.text "interrupt"), .write CloseMessage p none,
          .wait r.1 r.2, .log (waitLog r.1)], true)

/-- The function `main` (client/main.go:17-105) as run by the main goroutine, after flag
parsing and `signal.Notify`.  `log.Fatal` exits the process at once; otherwise the deferred
`ticker.Stop()` and `c.Close()` run, in that order, when `main` returns from the loop. -/
def main (lib : Lib) (env : Env) (fuel : Nat) : Run :=
  match env.dial with
  | some e => ([.log (.connecting env.addr), .dial (some e), .log (.err "dial:" e), .exit], true)
  | none =>
    let start : List Event :=
      [.log (.connecting env.addr), .dial none, .go, .newTicker (5 * Second)]
    let body := controlLoop lib env fuel 0 0
    if body.2 then (start ++ body.1 ++ [.tickerStop, .close], true)
    else (start ++ body.1, false)

/-- A library for the examples: the close payload is the status code in two big-endian bytes
followed by the reason, and a time is printed as a run of digits. -/
def demoLib : Lib where
  FormatCloseMessage := fun code text =>
    UInt8.ofNat (code.toNat / 256) :: UInt8.ofNat (code.toNat % 256) :: stringBytes text
  timeString := fun t => (Nat.toDigits 10 t).asString

/-- The scenario of the specification seen from the client: one heartbeat, then the operator
interrupts, and the server answers the close frame after 20 milliseconds. -/
def demoEnv : Env where
  addr := "localhost:8080"
  dial := none
  reads := fun k =>
    match k with
    | 0 => .ok TextMessage [104, 101, 108, 108, 111]
    | _ => .err "websocket: close 1000 (normal)"
  selects := fun k =>
    match k with
    | 0 => .tick 5000000000 false false
    | _ => .interrupt false none
  writes := fun _ => none
  doneAfter := some 20000000
  tie := .timeout

/-- The peer has closed the connection, so `done` is closed, at the moment a tick is waiting
in `ticker.C`, and the first `select` takes the tick. -/
def raceEnv : Env where
  addr := "localhost:8080"
  dial := none
  reads := fun _ => .err "websocket: close 1006 (abnormal closure)"
  selects := fun k =>
    match k with
    | 0 => .tick 5000000000 true false
    | _ => .done none false
  writes := fun _ => none
  doneAfter := some 0
  tie := .done

/-- The operator interrupts at once and the close frame cannot be written. -/
def closeFailEnv : Env where
  addr := "localhost:8080"
  dial := none
  reads := fun _ => .ok TextMessage []
  selects := fun _ => .interrupt false none
  writes := fun _ => some "write: broken pipe"
  doneAfter := none
  tie := .timeout

/-- The second heartbeat cannot be written. -/
def tickFailEnv : Env where
  addr := "localhost:8080"
  dial := none
  reads := fun _ => .ok TextMessage []
  selects := fun k => .tick (5000000000 * (k + 1)) false false
  writes := fun k => if k = 1 then some "write: broken pipe" else none
  doneAfter := none
  tie := .timeout

/-- What follows an evaluation of the outer `select` in a trace of the control loop. -/
def AfterSelect (lib : Lib) (env : Env) (returned : Bool) (s : Select) (post : List Event) :
    Prop :=
  match s with
  | .done _ _ => post = [] ∧ returned = true
  | .tick t _ _ =>
    ∃ r rest, post = .log (.text "<-ticker.C") ::
        .write TextMessage (stringBytes (lib.timeString t)) r :: rest ∧
      ((∃ e, r = some e ∧ rest = [.log (.err "write:" e)] ∧ returned = true) ∨
        (r = none ∧ ((rest = [] ∧ returned = false) ∨ ∃ s1 rest1, rest = .select s1 :: rest1)))
  | .interrupt _ _ =>
    returned = true ∧
      ((∃ e, post = [.log (.text "interrupt"),
          .write CloseMessage (lib.FormatCloseMessage CloseNormalClosure "") (some e),
          .log (.err "write close:" e)]) ∨
        post = [.log (.text "interrupt"),
          .write CloseMessage (lib.FormatCloseMessage CloseNormalClosure "") none,
          .wait (wait env.doneAfter env.tie).1 (wait env.doneAfter env.tie).2,
          .log (waitLog (wait env.doneAfter env.tie).1)])

end Client

/-! ## Reading traces -/

/-- A `ReadMessage` call. -/
def Event.isRead : Event → Bool
  | .read _ => true
  | _ => false

/-- A `ReadMessage` call that returned a message. -/
def Event.isReadOk : Event → Bool
  | .read (.ok _ _) => true
  | _ => false

/-- A `WriteMessage` call, whether or not it succeeded. -/
def Event.isWrite : Event → Bool
  | .write _ _ _ => true
  | _ => false

/-- A `WriteMessage` call that returned an error. -/
def Event.isWriteErr : Event → Bool
  | .write _ _ (some _) => true
  | _ => false

/-- A `ReadMessage` or `WriteMessage` call that returned an error. -/
def Event.isFailure : Event → Bool
  | .read (.err _) => true
  | .write _ _ (some _) => true
  | _ => false

/-- A call on the connection: `ReadMessage`, `WriteMessage` or `Close`. -/
def Event.isConnOp : Event → Bool
  | .read _ => true
  | .write _ _ _ => true
  | .close => true
  | _ => false

/-- The calls on the connection, in order. -/
def connOps (tr : List Event) : List Event := tr.filter Event.isConnOp

/-- The messages returned by successful reads, in order. -/
def messagesRead : List Event → List (Int × Bytes)
  | [] => []
  | .read (.ok mt p) :: tr => (mt, p) :: messagesRead tr
  | _ :: tr => messagesRead tr

/-- The messages of the successful writes, in order. -/
def messagesWritten : List Event → List (Int × Bytes)
  | [] => []
  | .write mt p none :: tr => (mt, p) :: messagesWritten tr
  | _ :: tr => messagesWritten tr

/-- A `WriteMessage` call of message type `websocket.CloseMessage`. -/
def Event.isCloseFrame : Event → Bool
  | .write mt _ _ => decide (mt = CloseMessage)
  | _ => false

/-- An evaluation of the outer `select`. -/
def Event.isSelect : Event → Bool
  | .select _ => true
  | _ => false

/-- An evaluation of the inner `select`. -/
def Event.isWait : Event → Bool
  | .wait _ _ => true
  | _ => false

/-- Whether `done` is closed after the events of a reader trace: `close(done)` closes it and
no statement of the program opens it again. -/
def doneClosed (tr : List Event) : Bool := tr.contains .closeDone

end Websocket

/-! ## Lists cut at one element -/

namespace Websocket

theorem cons_eq_cut {α : Type} {a x : α} {l pre post : List α}
    (h : a :: l = pre ++ x :: post) :
    (pre = [] ∧ a = x ∧ l = post) ∨ ∃ pre1, pre = a :: pre1 ∧ l = pre1 ++ x :: post := by
  cases pre with
  | nil =>
    simp only [List.nil_append, List.cons.injEq] at h
    exact Or.inl ⟨rfl, h.1, h.2⟩
  | cons b pre1 =>
    simp only [List.cons_append, List.cons.injEq] at h
    exact Or.inr ⟨pre1, by rw [h.1], h.2⟩

theorem nil_ne_cut {α : Type} {x : α} {pre post : List α} : [] ≠ pre ++ x :: post := by
  cases pre <;> simp

theorem snoc_eq_cut {α : Type} {c x : α} {l pre post : List α}
    (h : l ++ [c] = pre ++ x :: post) (hx : x ≠ c) :
    ∃ post1, l = pre ++ x :: post1 ∧ post = post1 ++ [c] := by
  induction l generalizing pre with
  | nil =>
    rcases cons_eq_cut h with ⟨_, h2, _⟩ | ⟨pre1, _, h2⟩
    · exact absurd h2.symm hx
    · exact absurd h2 nil_ne_cut
  | cons a l ih =>
    rcases cons_eq_cut h with ⟨h1, h2, h3⟩ | ⟨pre1, h1, h2⟩
    · subst h1 h2
      exact ⟨l, rfl, h3.symm⟩
    · obtain ⟨post1, h3, h4⟩ := ih h2
      exact ⟨post1, by rw [h1, h3]; rfl, h4⟩

theorem cut_skip {α : Type} (P : α → Bool) (hd : List α) {l pre post : List α} {x : α}
    (h : hd ++ l = pre ++ x :: post) (hx : P x = true) (hhd : ∀ z ∈ hd, P z = false) :
    ∃ pre1, pre = hd ++ pre1 ∧ l = pre1 ++ x :: post := by
  induction hd generalizing pre with
  | nil => exact ⟨pre, rfl, h⟩
  | cons a hd ih =>
    rcases cons_eq_cut h with ⟨_, h2, _⟩ | ⟨pre1, h1, h2⟩
    · have := hhd a (List.mem_cons_self _ _)
      rw [h2, hx] at this
      cases this
    · obtain ⟨pre2, h3, h4⟩ := ih h2 (fun z hz => hhd z (List.mem_cons_of_mem _ hz))
      exact ⟨pre2, by rw [h1, h3]; rfl, h4⟩

theorem cut_none {α : Type} (P : α → Bool) {l pre post : List α} {x : α}
    (h : l = pre ++ x :: post) (hx : P x = true) (hl : ∀ z ∈ l, P z = false) : False := by
  have := hl x (by rw [h]; simp)
  rw [hx] at this
  cases this

theorem cut_head {α : Type} (P : α → Bool) {a x : α} {l pre post : List α}
    (h : a :: l = pre ++ x :: post) (hx : P x = true) (hl : ∀ z ∈ l, P z = false) :
    pre = [] ∧ a = x ∧ l = post := by
  rcases cons_eq_cut h with h1 | ⟨pre1, _, h2⟩
  · exact h1
  · exact (cut_none P h2 hx hl).elim

/-! ## The echo handler -/

namespace Server

theorem echoLoop_next_op (env : Env) (fuel k : Nat) (pre post : List Event) (mt : Int)
    (b : Bytes) (h : connOps (echoLoop env fuel k).1 = pre ++ .read (.ok mt b) :: post) :
    ∃ r rest, post = .write mt b r :: rest := by
  induction fuel generalizing k pre with
  | zero => exact absurd h nil_ne_cut
  | succ fuel ih =>
    unfold echoLoop at h
    split at h
    · simp only [connOps, List.filter, Event.isConnOp] at h
      rcases cons_eq_cut h with ⟨_, h2, _⟩ | ⟨pre1, _, h2⟩
      · simp at h2
      · exact absurd h2 nil_ne_cut
    · split at h
      · simp only [connOps, List.filter, Event.isConnOp] at h
        rcases cons_eq_cut h with ⟨_, h2, h3⟩ | ⟨pre1, _, h2⟩
        · simp only [Event.read.injEq, ReadResult.ok.injEq] at h2
          obtain ⟨rfl, rfl⟩ := h2
          exact ⟨_, _, h3.symm⟩
        · rcases cons_eq_cut h2 with ⟨_, h2, _⟩ | ⟨pre2, _, h2⟩
          · simp at h2
          · exact absurd h2 nil_ne_cut
      · simp only [connOps, List.filter, Event.isConnOp] at h
        rcases cons_eq_cut h with ⟨_, h2, h3⟩ | ⟨pre1, _, h2⟩
        · simp only [Event.read.injEq, ReadResult.ok.injEq] at h2
          obtain ⟨rfl, rfl⟩ := h2
          exact ⟨_, _, h3.symm⟩
        · rcases cons_eq_cut h2 with ⟨_, h2, _⟩ | ⟨pre2, _, h2⟩
          · simp at h2
          · exact ih _ _ h2

theorem echoLoop_written_eq_read (env : Env) (fuel k : Nat)
    (h : ∀ x ∈ (echoLoop env fuel k).1, x.isWriteErr = false) :
    messagesWritten (echoLoop env fuel k).1 = messagesRead (echoLoop env fuel k).1 := by
  induction fuel generalizing k with
  | zero => rfl
  | succ fuel ih =>
    unfold echoLoop at h ⊢
    split
    · rfl
    · rename_i mt message hr
      rw [hr] at h
      split
      · rename_i e hw
        rw [hw] at h
        have := h (.write mt message (some e)) (by simp)
        simp [Event.isWriteErr] at this
      · rename_i hw
        rw [hw] at h
        simp only [messagesWritten, messagesRead]
        rw [ih (k + 1) (fun x hx => h x (by simp [hx]))]

theorem echoLoop_read_err (env : Env) (fuel k : Nat) (pre post : List Event) (e : Err)
    (h : (echoLoop env fuel k).1 = pre ++ .read (.err e) :: post) :
    (echoLoop env fuel k).1.countP Event.isWrite = pre.countP Event.isRead ∧
      ∀ x ∈ post, x.isRead = false ∧ x.isWrite = false := by
  induction fuel generalizing k pre with
  | zero => exact absurd h nil_ne_cut
  | succ fuel ih =>
    unfold echoLoop at h ⊢
    split at h
    · rename_i e1 hr
      simp only [hr]
      rcases cons_eq_cut h with ⟨h1, _, h3⟩ | ⟨pre1, _, h2⟩
      · subst h1 h3
        simp [Event.isWrite, Event.isRead]
      · rcases cons_eq_cut h2 with ⟨_, h2, _⟩ | ⟨pre2, _, h2⟩
        · simp at h2
        · exact absurd h2 nil_ne_cut
    · rename_i mt message hr
      simp only [hr]
      split at h
      · rcases cons_eq_cut h with ⟨_, h2, _⟩ | ⟨pre1, _, h⟩
        · simp at h2
        rcases cons_eq_cut h with ⟨_, h2, _⟩ | ⟨pre1, _, h⟩
        · simp at h2
        rcases cons_eq_cut h with ⟨_, h2, _⟩ | ⟨pre1, _, h⟩
        · simp at h2
        rcases cons_eq_cut h with ⟨_, h2, _⟩ | ⟨pre1, _, h⟩
        · simp at h2
        exact absurd h nil_ne_cut
      · rename_i hw
        simp only [hw]
        rcases cons_eq_cut h with ⟨_, h2, _⟩ | ⟨pre1, rfl, ha⟩
        · simp at h2
        rcases cons_eq_cut ha with ⟨_, h2, _⟩ | ⟨pre2, rfl, hb⟩
        · simp at h2
        rcases cons_eq_cut hb with ⟨_, h2, _⟩ | ⟨pre3, rfl, hc⟩
        · simp at h2
        obtain ⟨h1, h2⟩ := ih _ _ hc
        refine ⟨?_, h2⟩
        simp [List.countP_cons, Event.isWrite, Event.isRead, h1]

theorem echoLoop_write_err (env : Env) (fuel k : Nat) (pre post : List Event) (mt : Int)
    (p : Bytes) (e : Err)
    (h : (echoLoop env fuel k).1 = pre ++ .write mt p (some e) :: post) :
    ∀ x ∈ post, x.isRead = false ∧ x.isWrite = false := by
  induction fuel generalizing k pre with
  | zero => exact absurd h nil_ne_cut
  | succ fuel ih =>
    unfold echoLoop at h
    split at h
    · rcases cons_eq_cut h with ⟨_, h2, _⟩ | ⟨pre1, _, h⟩
      · simp at h2
      rcases cons_eq_cut h with ⟨_, h2, _⟩ | ⟨pre1, _, h⟩
      · simp at h2
      exact absurd h nil_ne_cut
    · split at h
      · rcases cons_eq_cut h with ⟨_, h2, _⟩ | ⟨pre1, _, h⟩
        · simp at h2
        rcases cons_eq_cut h with ⟨_, h2, _⟩ | ⟨pre1, _, h⟩
        · simp at h2
        rcases cons_eq_cut h with ⟨_, _, h3⟩ | ⟨pre1, _, h⟩
        · subst h3
          simp [Event.isWrite, Event.isRead]
        rcases cons_eq_cut h with ⟨_, h2, _⟩ | ⟨pre1, _, h⟩
        · simp at h2
        exact absurd h nil_ne_cut
      · rcases cons_eq_cut h with ⟨_, h2, _⟩ | ⟨pre1, _, h⟩
        · simp at h2
        rcases cons_eq_cut h with ⟨_, h2, _⟩ | ⟨pre1, _, h⟩
        · simp at h2
        rcases cons_eq_cut h with ⟨_, h2, _⟩ | ⟨pre1, _, h⟩
        · simp at h2
        exact ih _ _ h

theorem echoLoop_alternates (env : Env) (fuel k : Nat) (p : List Event)
    (h : p <+: (echoLoop env fuel k).1) :
    p.countP Event.isWrite ≤ p.countP Event.isReadOk ∧
      p.countP Event.isReadOk ≤ p.countP Event.isWrite + 1 := by
  induction fuel generalizing k p with
  | zero =>
    simp only [echoLoop, List.prefix_nil] at h
    subst h
    simp
  | succ fuel ih =>
    unfold echoLoop at h
    split at h
    · rcases List.prefix_cons_iff.1 h with rfl | ⟨p1, rfl, ha⟩
      · simp
      rcases List.prefix_cons_iff.1 ha with rfl | ⟨p2, rfl, hb⟩
      · simp [Event.isWrite, Event.isReadOk]
      simp only [List.prefix_nil] at hb
      subst hb
      simp [Event.isWrite, Event.isReadOk]
    · split at h
      · rcases List.prefix_cons_iff.1 h with rfl | ⟨p1, rfl, ha⟩
        · simp
        rcases List.prefix_cons_iff.1 ha with rfl | ⟨p2, rfl, hb⟩
        · simp [Event.isWrite, Event.isReadOk]
        rcases List.prefix_cons_iff.1 hb with rfl | ⟨p3, rfl, hc⟩
        · simp [Event.isWrite, Event.isReadOk]
        rcases List.prefix_cons_iff.1 hc with rfl | ⟨p4, rfl, hd⟩
        · simp [Event.isWrite, Event.isReadOk]
        simp only [List.prefix_nil] at hd
        subst hd
        simp [Event.isWrite, Event.isReadOk]
      · rcases List.prefix_cons_iff.1 h with rfl | ⟨p1, rfl, ha⟩
        · simp
        rcases List.prefix_cons_iff.1 ha with rfl | ⟨p2, rfl, hb⟩
        · simp [Event.isWrite, Event.isReadOk]
        rcases List.prefix_cons_iff.1 hb with rfl | ⟨p3, rfl, hc⟩
        · simp [Event.isWrite, Event.isReadOk]
        obtain ⟨h1, h2⟩ := ih _ _ hc
        simp only [List.countP_cons, Event.isWrite, Event.isReadOk]
        constructor <;> simp <;> omega

theorem echoLoop_returns (env : Env) (fuel k j : Nat) (hk : k ≤ j) (hj : j < k + fuel)
    (hf : (∃ e, env.reads j = .err e) ∨ (∃ e, env.writes j = some e)) :
    (echoLoop env fuel k).2 = true := by
  induction fuel generalizing k with
  | zero => omega
  | succ fuel ih =>
    unfold echoLoop
    split
    · rfl
    · rename_i mt message hr
      split
      · rfl
      · rename_i hw
        have hne : k ≠ j := by
          rintro rfl
          rcases hf with ⟨e, he⟩ | ⟨e, he⟩
          · rw [hr] at he
            cases he
          · rw [hw] at he
            cases he
        exact ih (k + 1) (by omega) (by omega)

theorem echoLoop_failure_returns (env : Env) (fuel k : Nat) (x : Event)
    (hx : x ∈ (echoLoop env fuel k).1) (hf : x.isFailure = true) :
    (echoLoop env fuel k).2 = true := by
  induction fuel generalizing k with
  | zero => simp [echoLoop] at hx
  | succ fuel ih =>
    unfold echoLoop at hx ⊢
    split
    · rfl
    · rename_i mt message hr
      rw [hr] at hx
      split
      · rfl
      · rename_i hw
        rw [hw] at hx
        simp only [List.mem_cons] at hx
        rcases hx with rfl | rfl | rfl | hx
        · simp [Event.isFailure] at hf
        · simp [Event.isFailure] at hf
        · simp [Event.isFailure] at hf
        · exact ih _ hx

theorem echo_upgraded (env : Env) (fuel : Nat) (h : env.upgrade = none) :
    echo env fuel =
      (.upgrade none ::
        ((echoLoop env fuel 0).1 ++ if (echoLoop env fuel 0).2 then [.close] else []),
        (echoLoop env fuel 0).2) := by
  unfold echo
  rw [h]
  cases hb : (echoLoop env fuel 0).2 <;> simp [hb]

theorem echo_cut (env : Env) (fuel : Nat) (pre post : List Event) (x : Event)
    (h : (echo env fuel).1 = pre ++ x :: post) (hx : x.isRead = true ∨ x.isWrite = true) :
    env.upgrade = none ∧ ∃ pre1 post1, pre = .upgrade none :: pre1 ∧
      (echoLoop env fuel 0).1 = pre1 ++ x :: post1 ∧
      (post = post1 ∨ post = post1 ++ [.close]) := by
  cases hu : env.upgrade with
  | some e =>
    simp only [echo, hu] at h
    rcases cons_eq_cut h with ⟨_, h2, _⟩ | ⟨pre1, _, ha⟩
    · subst h2
      simp [Event.isRead, Event.isWrite] at hx
    rcases cons_eq_cut ha with ⟨_, h2, _⟩ | ⟨pre2, _, hb⟩
    · subst h2
      simp [Event.isRead, Event.isWrite] at hx
    exact absurd hb nil_ne_cut
  | none =>
    refine ⟨rfl, ?_⟩
    rw [echo_upgraded env fuel hu] at h
    rcases cons_eq_cut h with ⟨_, h2, _⟩ | ⟨pre1, h1, ha⟩
    · subst h2
      simp [Event.isRead, Event.isWrite] at hx
    cases hb : (echoLoop env fuel 0).2 with
    | false =>
      simp only [hb, Bool.false_eq_true, if_false, List.append_nil] at ha
      exact ⟨pre1, post, h1, ha, Or.inl rfl⟩
    | true =>
      simp only [hb, if_true] at ha
      have hne : x ≠ .close := by
        rintro rfl
        simp [Event.isRead, Event.isWrite] at hx
      obtain ⟨post1, h3, h4⟩ := snoc_eq_cut ha hne
      exact ⟨pre1, post1, h1, h3, Or.inr h4⟩

theorem messagesWritten_append (a b : List Event) :
    messagesWritten (a ++ b) = messagesWritten a ++ messagesWritten b := by
  induction a with
  | nil => rfl
  | cons x a ih =>
    cases x with
    | write mt p r => cases r <;> simp [messagesWritten, ih]
    | _ => simp [messagesWritten, ih]

theorem messagesRead_append (a b : List Event) :
    messagesRead (a ++ b) = messagesRead a ++ messagesRead b := by
  induction a with
  | nil => rfl
  | cons x a ih =>
    cases x with
    | read r => cases r <;> simp [messagesRead, ih]
    | _ => simp [messagesRead, ih]

theorem echo_demo_run :
    echo demoEnv 4 =
      ([.upgrade none,
        .read (.ok 1 [104, 101, 108, 108, 111]), .log (.recv [104, 101, 108, 108, 111]),
        .write 1 [104, 101, 108, 108, 111] none,
        .read (.ok 1 [102, 111, 111]), .log (.recv [102, 111, 111]),
        .write 1 [102, 111, 111] none,
        .read (.ok 1 []), .log (.recv []), .write 1 [] none,
        .read (.err "websocket: close 1000 (normal)"),
        .log (.err "read:" "websocket: close 1000 (normal)"),
        .close], true) := by
  rfl

theorem echo_brokenPipe_run :
    echo brokenPipeEnv 5 =
      ([.upgrade none,
        .read (.ok 2 [1, 2, 3]), .log (.recv [1, 2, 3]), .write 2 [1, 2, 3] none,
        .read (.ok 2 [1, 2, 3]), .log (.recv [1, 2, 3]),
        .write 2 [1, 2, 3] (some "write: broken pipe"),
        .log (.err "write:" "write: broken pipe"),
        .close], true) := by
  rfl

/-- C1: in the echo handler every message that `ReadMessage` returns is followed, as the next
call on the connection, by `WriteMessage` with the same type tag and the same bytes. -/
theorem echo_writes_back_what_it_read (env : Env) (fuel : Nat) (pre post : List Event)
    (mt : Int) (b : Bytes)
    (h : connOps (echo env fuel).1 = pre ++ .read (.ok mt b) :: post) :
    ∃ r rest, post = .write mt b r :: rest := by
  cases hu : env.upgrade with
  | some e =>
    simp only [echo, hu, connOps, List.filter, Event.isConnOp] at h
    exact absurd h nil_ne_cut
  | none =>
    rw [echo_upgraded env fuel hu] at h
    cases hb : (echoLoop env fuel 0).2 with
    | false =>
      simp only [hb, Bool.false_eq_true, if_false, List.append_nil, connOps, List.filter_cons,
        Event.isConnOp] at h
      exact echoLoop_next_op env fuel 0 pre post mt b h
    | true =>
      simp only [hb, if_true, connOps, List.filter_cons, List.filter_append, Event.isConnOp,
        List.filter_nil] at h
      obtain ⟨post1, h1, h2⟩ := snoc_eq_cut h (by simp)
      obtain ⟨r, rest, h3⟩ := echoLoop_next_op env fuel 0 pre post1 mt b h1
      exact ⟨r, rest ++ [.close], by rw [h2, h3]; rfl⟩

/-- Witness of C1 on the scenario "hello", "foo", "": the second read is followed by the
write of "foo". -/
theorem echo_writes_back_what_it_read_witness :
    connOps (echo demoEnv 4).1 =
        [.read (.ok 1 [104, 101, 108, 108, 111]), .write 1 [104, 101, 108, 108, 111] none] ++
          .read (.ok 1 [102, 111, 111]) ::
          [.write 1 [102, 111, 111] none, .read (.ok 1 []), .write 1 [] none,
            .read (.err "websocket: close 1000 (normal)"), .close] ∧
      ∃ r rest,
        [Event.write 1 [102, 111, 111] none, .read (.ok 1 []), .write 1 [] none,
            .read (.err "websocket: close 1000 (normal)"), .close] =
          .write 1 [102, 111, 111] r :: rest :=
  ⟨rfl, echo_writes_back_what_it_read demoEnv 4
    [.read (.ok 1 [104, 101, 108, 108, 111]), .write 1 [104, 101, 108, 108, 111] none] _
    1 [102, 111, 111] rfl⟩

theorem echoLoop_writes_delivered (env : Env) (ms : List (Int × Bytes)) (fuel k : Nat)
    (hlen : ms.length ≤ fuel)
    (hd : ∀ i m, ms[i]? = some m → env.reads (k + i) = .ok m.1 m.2 ∧ env.writes (k + i) = none) :
    ms <+: messagesWritten (echoLoop env fuel k).1 := by
  induction ms generalizing fuel k with
  | nil => exact List.nil_prefix
  | cons m ms ih =>
    cases fuel with
    | zero => simp at hlen
    | succ fuel =>
      obtain ⟨hr, hw⟩ := hd 0 m (by simp)
      simp only [Nat.add_zero] at hr hw
      unfold echoLoop
      simp only [hr, hw, messagesWritten]
      refine (List.prefix_cons_inj m).2 (ih fuel (k + 1) ?_ ?_)
      · simpa using hlen
      · intro i x hx
        have := hd (i + 1) x (by simpa using hx)
        rwa [show k + (i + 1) = k + 1 + i by omega] at this

/-- C2: when no write fails, the messages the echo handler wrote are exactly the messages
it read, in the same order and the same number; and when the peer delivers the messages `ms`
and their writes succeed, a handler that ran for that many iterations has written `ms`, in
order, before anything else. -/
theorem echo_preserves_sequence (env : Env) (fuel : Nat) :
    ((∀ x ∈ (echo env fuel).1, x.isWriteErr = false) →
        messagesWritten (echo env fuel).1 = messagesRead (echo env fuel).1) ∧
    (∀ ms : List (Int × Bytes), ms.length ≤ fuel → env.upgrade = none →
        (∀ i m, ms[i]? = some m → env.reads i = .ok m.1 m.2 ∧ env.writes i = none) →
        ms <+: messagesWritten (echo env fuel).1) := by
  have ht : ∀ t : List Event, (t = [] ∨ t = [.close]) →
      messagesWritten t = [] ∧ messagesRead t = [] := by
    rintro t (rfl | rfl) <;> exact ⟨rfl, rfl⟩
  constructor
  · intro h
    cases hu : env.upgrade with
    | some e => simp [echo, hu, messagesWritten, messagesRead]
    | none =>
      rw [echo_upgraded env fuel hu] at h ⊢
      have hl : ∀ x ∈ (echoLoop env fuel 0).1, x.isWriteErr = false :=
        fun x hx => h x (by simp [hx])
      obtain ⟨h1, h2⟩ := ht (if (echoLoop env fuel 0).2 then [.close] else [])
        (by cases (echoLoop env fuel 0).2 <;> simp)
      simp only [messagesWritten, messagesRead, messagesWritten_append, messagesRead_append,
        h1, h2, echoLoop_written_eq_read env fuel 0 hl]
  · intro ms hlen hu hd
    rw [echo_upgraded env fuel hu]
    obtain ⟨h1, _⟩ := ht (if (echoLoop env fuel 0).2 then [.close] else [])
      (by cases (echoLoop env fuel 0).2 <;> simp)
    simp only [messagesWritten, messagesWritten_append, h1, List.append_nil]
    exact echoLoop_writes_delivered env ms fuel 0 hlen (by simpa using hd)

/-- Witness of C2: "hello", "foo", "" come back as "hello", "foo", "". -/
theorem echo_preserves_sequence_witness :
    messagesWritten (echo demoEnv 4).1 = messagesRead (echo demoEnv 4).1 ∧
      messagesRead (echo demoEnv 4).1 =
        [(1, [104, 101, 108, 108, 111]), (1, [102, 111, 111]), (1, [])] ∧
      [(1, [104, 101, 108, 108, 111]), (1, [102, 111, 111]), (1, [])] <+:
        messagesWritten (echo demoEnv 4).1 :=
  ⟨(echo_preserves_sequence demoEnv 4).1 (by decide), rfl,
    (echo_preserves_sequence demoEnv 4).2 _ (by decide) rfl (by
      intro i m hm
      match i, hm with
      | 0, hm => cases hm; exact ⟨rfl, rfl⟩
      | 1, hm => cases hm; exact ⟨rfl, rfl⟩
      | 2, hm => cases hm; exact ⟨rfl, rfl⟩
      | _ + 3, hm => cases hm)⟩

/-- C5: the echo loop ends on the first I/O error and alternates read and write.  A failed
read that is the k-th read has exactly k writes in the whole trace and no read or write after
it; a failed write has no read or write after it; in every initial part of the trace the
successful reads outnumber the writes by 0 or 1; and the handler has returned as soon as a
call has failed, which happens whenever the environment fails a call the loop reaches. -/
theorem echo_ends_on_first_error (env : Env) (fuel : Nat) :
    (∀ pre e post, (echo env fuel).1 = pre ++ .read (.err e) :: post →
        (echo env fuel).1.countP Event.isWrite = pre.countP Event.isRead ∧
          ∀ x ∈ post, x.isRead = false ∧ x.isWrite = false) ∧
    (∀ pre mt p e post, (echo env fuel).1 = pre ++ .write mt p (some e) :: post →
        ∀ x ∈ post, x.isRead = false ∧ x.isWrite = false) ∧
    (∀ p, p <+: (echo env fuel).1 →
        p.countP Event.isWrite ≤ p.countP Event.isReadOk ∧
          p.countP Event.isReadOk ≤ p.countP Event.isWrite + 1) ∧
    (∀ x ∈ (echo env fuel).1, x.isFailure = true → (echo env fuel).2 = true) ∧
    (∀ j, j < fuel → ((∃ e, env.reads j = .err e) ∨ (∃ e, env.writes j = some e)) →
        (echo env fuel).2 = true) := by
  have hclose : ∀ post post1 : List Event, (post = post1 ∨ post = post1 ++ [.close]) →
      (∀ x ∈ post1, x.isRead = false ∧ x.isWrite = false) →
      ∀ x ∈ post, x.isRead = false ∧ x.isWrite = false := by
    rintro post post1 (rfl | rfl) h1 x hx
    · exact h1 x hx
    · rcases List.mem_append.1 hx with hx | hx
      · exact h1 x hx
      · simp only [List.mem_singleton] at hx
        subst hx
        exact ⟨rfl, rfl⟩
  refine ⟨?_, ?_, ?_, ?_, ?_⟩
  · intro pre e post h
    obtain ⟨hu, pre1, post1, rfl, h2, h3⟩ := echo_cut env fuel pre post _ h (Or.inl rfl)
    obtain ⟨h4, h5⟩ := echoLoop_read_err env fuel 0 pre1 post1 e h2
    refine ⟨?_, hclose post post1 h3 h5⟩
    rw [echo_upgraded env fuel hu]
    cases (echoLoop env fuel 0).2 <;>
      simp [List.countP_cons, List.countP_append, Event.isWrite, Event.isRead, h4]
  · intro pre mt p e post h
    obtain ⟨hu, pre1, post1, rfl, h2, h3⟩ := echo_cut env fuel pre post _ h (Or.inr rfl)
    exact hclose post post1 h3 (echoLoop_write_err env fuel 0 pre1 post1 mt p e h2)
  · intro p hp
    cases hu : env.upgrade with
    | some e =>
      simp only [echo, hu] at hp
      rcases List.prefix_cons_iff.1 hp with rfl | ⟨p1, rfl, ha⟩
      · simp
      rcases List.prefix_cons_iff.1 ha with rfl | ⟨p2, rfl, hb⟩
      · simp [Event.isWrite, Event.isReadOk]
      simp only [List.prefix_nil] at hb
      subst hb
      simp [Event.isWrite, Event.isReadOk]
    | none =>
      rw [echo_upgraded env fuel hu] at hp
      rcases List.prefix_cons_iff.1 hp with rfl | ⟨p1, rfl, ha⟩
      · simp
      have hbody : ∀ q, q <+: (echoLoop env fuel 0).1 →
          (Event.upgrade none :: q).countP Event.isWrite ≤
              (Event.upgrade none :: q).countP Event.isReadOk ∧
            (Event.upgrade none :: q).countP Event.isReadOk ≤
              (Event.upgrade none :: q).countP Event.isWrite + 1 := by
        intro q hq
        have := echoLoop_alternates env fuel 0 q hq
        simpa [List.countP_cons, Event.isWrite, Event.isReadOk] using this
      cases hb : (echoLoop env fuel 0).2 with
      | false =>
        simp only [hb, Bool.false_eq_true, if_false, List.append_nil] at ha
        exact hbody p1 ha
      | true =>
        simp only [hb, if_true] at ha
        rcases List.prefix_concat_iff.1 ha with rfl | hc
        · have := echoLoop_alternates env fuel 0 _ (List.prefix_refl _)
          simpa [List.countP_cons, List.countP_append, Event.isWrite, Event.isReadOk]
            using this
        · exact hbody p1 hc
  · intro x hx hf
    cases hu : env.upgrade with
    | some e => simp [echo, hu]
    | none =>
      rw [echo_upgraded env fuel hu] at hx ⊢
      simp only [List.mem_cons, List.mem_append] at hx
      rcases hx with rfl | hx | hx
      · simp [Event.isFailure] at hf
      · exact echoLoop_failure_returns env fuel 0 x hx hf
      · split at hx
        · assumption
        · simp at hx
  · intro j hj hf
    cases hu : env.upgrade with
    | some e => simp [echo, hu]
    | none =>
      rw [echo_upgraded env fuel hu]
      exact echoLoop_returns env fuel 0 j (Nat.zero_le _) (by omega) hf

/-- Witness of C5: in the scenario the failed read is the read number 3 and the trace has 3
writes; in a run whose second write fails the failed write is the last call, and the handler
has returned. -/
theorem echo_ends_on_first_error_witness :
    ((echo demoEnv 4).1.countP Event.isWrite = 3 ∧
        ∀ x ∈ [Event.log (.err "read:" "websocket: close 1000 (normal)"), .close],
          x.isRead = false ∧ x.isWrite = false) ∧
      (∀ x ∈ [Event.log (.err "write:" "write: broken pipe"), .close],
        x.isRead = false ∧ x.isWrite = false) ∧
      (echo brokenPipeEnv 5).2 = true :=
  ⟨(echo_ends_on_first_error demoEnv 4).1
      [.upgrade none,
        .read (.ok 1 [104, 101, 108, 108, 111]), .log (.recv [104, 101, 108, 108, 111]),
        .write 1 [104, 101, 108, 108, 111] none,
        .read (.ok 1 [102, 111, 111]), .log (.recv [102, 111, 111]),
        .write 1 [102, 111, 111] none,
        .read (.ok 1 []), .log (.recv []), .write 1 [] none]
      "websocket: close 1000 (normal)" _ rfl,
    (echo_ends_on_first_error brokenPipeEnv 5).2.1
      [.upgrade none, .read (.ok 2 [1, 2, 3]), .log (.recv [1, 2, 3]), .write 2 [1, 2, 3] none,
        .read (.ok 2 [1, 2, 3]), .log (.recv [1, 2, 3])]
      2 [1, 2, 3] "write: broken pipe" _ rfl,
    (echo_ends_on_first_error brokenPipeEnv 5).2.2.2.2 1 (by decide) (Or.inr ⟨_, rfl⟩)⟩

end Server

/-! ## The client -/

namespace Client

theorem controlLoop_head (lib : Lib) (env : Env) (fuel k w : Nat) :
    ((controlLoop lib env fuel k w).1 = [] ∧ (controlLoop lib env fuel k w).2 = false) ∨
      ∃ s rest, (controlLoop lib env fuel k w).1 = .select s :: rest := by
  cases fuel with
  | zero => exact Or.inl ⟨rfl, rfl⟩
  | succ fuel =>
    right
    unfold controlLoop
    cases env.selects k with
    | done tk i => exact ⟨_, _, rfl⟩
    | tick t d i => cases env.writes w <;> exact ⟨_, _, rfl⟩
    | interrupt d tk => cases env.writes w <;> exact ⟨_, _, rfl⟩

theorem controlLoop_at_select (lib : Lib) (env : Env) (fuel k w : Nat) (pre post : List Event)
    (s : Select) (h : (controlLoop lib env fuel k w).1 = pre ++ .select s :: post) :
    AfterSelect lib env (controlLoop lib env fuel k w).2 s post := by
  induction fuel generalizing k w pre with
  | zero => exact absurd h nil_ne_cut
  | succ fuel ih =>
    unfold controlLoop at h ⊢
    cases hs : env.selects k with
    | done tk i =>
      simp only [hs] at h ⊢
      obtain ⟨_, h2, h3⟩ := cut_head Event.isSelect h rfl (by simp)
      cases h2
      exact ⟨h3.symm, rfl⟩
    | tick t d i =>
      cases hw : env.writes w with
      | some e =>
        simp only [hs, hw] at h ⊢
        obtain ⟨_, h2, h3⟩ := cut_head Event.isSelect h rfl (by simp [Event.isSelect])
        cases h2
        exact ⟨_, _, h3.symm, Or.inl ⟨e, rfl, rfl, rfl⟩⟩
      | none =>
        simp only [hs, hw] at h ⊢
        rcases cons_eq_cut h with ⟨_, h2, h3⟩ | ⟨pre1, _, ha⟩
        · cases h2
          refine ⟨_, _, h3.symm, Or.inr ⟨rfl, ?_⟩⟩
          exact controlLoop_head lib env fuel (k + 1) (w + 1)
        · obtain ⟨pre2, _, hb⟩ := cut_skip Event.isSelect
            [.log (.text "<-ticker.C"),
              .write TextMessage (stringBytes (lib.timeString t)) none]
            ha rfl (by simp [Event.isSelect])
          exact ih _ _ _ hb
    | interrupt d tk =>
      cases hw : env.writes w with
      | some e =>
        simp only [hs, hw] at h ⊢
        obtain ⟨_, h2, h3⟩ := cut_head Event.isSelect h rfl (by simp [Event.isSelect])
        cases h2
        exact ⟨rfl, Or.inl ⟨e, h3.symm⟩⟩
      | none =>
        simp only [hs, hw] at h ⊢
        obtain ⟨_, h2, h3⟩ := cut_head Event.isSelect h rfl (by simp [Event.isSelect])
        cases h2
        exact ⟨rfl, Or.inr h3.symm⟩

theorem controlLoop_at_closeFrame (lib : Lib) (env : Env) (fuel k w : Nat)
    (pre post : List Event) (x : Event)
    (h : (controlLoop lib env fuel k w).1 = pre ++ x :: post) (hx : x.isCloseFrame = true) :
    (controlLoop lib env fuel k w).2 = true ∧ (∀ z ∈ pre, z.isCloseFrame = false) ∧
      ((∃ e, x = .write CloseMessage (lib.FormatCloseMessage CloseNormalClosure "") (some e) ∧
          post = [.log (.err "write close:" e)]) ∨
        (x = .write CloseMessage (lib.FormatCloseMessage CloseNormalClosure "") none ∧
          post = [.wait (wait env.doneAfter env.tie).1 (wait env.doneAfter env.tie).2,
            .log (waitLog (wait env.doneAfter env.tie).1)])) := by
  induction fuel generalizing k w pre with
  | zero => exact absurd h nil_ne_cut
  | succ fuel ih =>
    unfold controlLoop at h ⊢
    cases hs : env.selects k with
    | done tk i =>
      simp only [hs] at h
      exact (cut_none Event.isCloseFrame h hx (by simp [Event.isCloseFrame])).elim
    | tick t d i =>
      cases hw : env.writes w with
      | some e =>
        simp only [hs, hw] at h
        exact (cut_none Event.isCloseFrame h hx
          (by simp [Event.isCloseFrame, TextMessage, CloseMessage])).elim
      | none =>
        simp only [hs, hw] at h ⊢
        obtain ⟨pre1, h1, ha⟩ := cut_skip Event.isCloseFrame
          [.select (.tick t d i), .log (.text "<-ticker.C"),
            .write TextMessage (stringBytes (lib.timeString t)) none]
          h hx (by simp [Event.isCloseFrame, TextMessage, CloseMessage])
        obtain ⟨h2, h3, h4⟩ := ih _ _ _ ha
        refine ⟨h2, ?_, h4⟩
        intro z hz
        rw [h1] at hz
        rcases List.mem_append.1 hz with hz | hz
        · simp only [List.mem_cons, List.mem_singleton, List.not_mem_nil, or_false] at hz
          rcases hz with rfl | rfl | rfl <;>
            simp [Event.isCloseFrame, TextMessage, CloseMessage]
        · exact h3 z hz
    | interrupt d tk =>
      cases hw : env.writes w with
      | some e =>
        simp only [hs, hw] at h ⊢
        obtain ⟨pre1, h1, ha⟩ := cut_skip Event.isCloseFrame
          [.select (.interrupt d tk), .log (.text "interrupt")]
          h hx (by simp [Event.isCloseFrame])
        obtain ⟨h2, h3, h4⟩ := cut_head Event.isCloseFrame ha hx (by simp [Event.isCloseFrame])
        subst h1 h2 h3 h4
        exact ⟨trivial, by simp [Event.isCloseFrame], Or.inl ⟨e, rfl, rfl⟩⟩
      | none =>
        simp only [hs, hw] at h ⊢
        obtain ⟨pre1, h1, ha⟩ := cut_skip Event.isCloseFrame
          [.select (.interrupt d tk), .log (.text "interrupt")]
          h hx (by simp [Event.isCloseFrame])
        obtain ⟨h2, h3, h4⟩ := cut_head Event.isCloseFrame ha hx (by simp [Event.isCloseFrame])
        subst h1 h2 h3 h4
        exact ⟨trivial, by simp [Event.isCloseFrame], Or.inr ⟨rfl, rfl⟩⟩

theorem controlLoop_no_release (lib : Lib) (env : Env) (fuel k w : Nat) :
    ∀ x ∈ (controlLoop lib env fuel k w).1, x ≠ .close ∧ x ≠ .tickerStop ∧ x ≠ .go := by
  induction fuel generalizing k w with
  | zero => simp [controlLoop]
  | succ fuel ih =>
    unfold controlLoop
    cases hs : env.selects k with
    | done tk i => simp
    | tick t d i =>
      cases hw : env.writes w with
      | some e => simp
      | none =>
        simp only [List.mem_cons]
        rintro x (rfl | rfl | rfl | hx)
        · simp
        · simp
        · simp
        · exact ih _ _ x hx
    | interrupt d tk => cases hw : env.writes w <;> simp

theorem controlLoop_returns (lib : Lib) (env : Env) (fuel k w j : Nat) (hk : k ≤ j)
    (hj : j < k + fuel)
    (hf : (∃ tk i, env.selects j = .done tk i) ∨ (∃ d tk, env.selects j = .interrupt d tk) ∨
      (∃ e, env.writes (w + (j - k)) = some e)) :
    (controlLoop lib env fuel k w).2 = true := by
  induction fuel generalizing k w with
  | zero => omega
  | succ fuel ih =>
    unfold controlLoop
    cases hs : env.selects k with
    | done tk i => rfl
    | tick t d i =>
      cases hw : env.writes w with
      | some e => rfl
      | none =>
        have hne : k ≠ j := by
          rintro rfl
          rcases hf with ⟨tk, i, he⟩ | ⟨d, tk, he⟩ | ⟨e, he⟩
          · rw [hs] at he
            cases he
          · rw [hs] at he
            cases he
          · simp only [Nat.sub_self, Nat.add_zero] at he
            rw [hw] at he
            cases he
        have hidx : w + 1 + (j - (k + 1)) = w + (j - k) := by omega
        exact ih (k + 1) (w + 1) (by omega) (by omega) (by rw [hidx]; exact hf)
    | interrupt d tk => cases hw : env.writes w <;> rfl

theorem isWrite_of_isCloseFrame (x : Event) (h : x.isCloseFrame = true) : x.isWrite = true := by
  cases x <;> simp_all [Event.isCloseFrame, Event.isWrite]

theorem controlLoop_demo_run :
    controlLoop demoLib demoEnv 5 0 0 =
      ([.select (.tick 5000000000 false false), .log (.text "<-ticker.C"),
        .write 1 (stringBytes (demoLib.timeString 5000000000)) none,
        .select (.interrupt false none), .log (.text "interrupt"),
        .write 8 (demoLib.FormatCloseMessage 1000 "") none,
        .wait .done 20000000, .log (.text "<-done")], true) := by
  rfl

/-- C4 as stated fails: `done` is closed and a tick is waiting, the `select` takes the tick,
and the loop writes a heartbeat after the signal before it returns at the next `select`. -/
theorem done_signalled_tick_still_sent :
    (raceEnv.selects 0).doneReady = true ∧
      controlLoop demoLib raceEnv 2 0 0 =
        ([.select (.tick 5000000000 true false), .log (.text "<-ticker.C"),
          .write TextMessage (stringBytes (demoLib.timeString 5000000000)) none,
          .select (.done none false)], true) ∧
      ¬ ∀ (lib : Lib) (env : Env) (fuel k w : Nat) (pre post : List Event) (s : Select),
          (controlLoop lib env fuel k w).1 = pre ++ .select s :: post →
          s.doneReady = true → ∀ x ∈ post, x.isWrite = false := by
  refine ⟨rfl, rfl, ?_⟩
  intro hall
  have := hall demoLib raceEnv 2 0 0 [] _ (.tick 5000000000 true false) rfl rfl
    (.write TextMessage (stringBytes (demoLib.timeString 5000000000)) none) (by simp)
  simp [Event.isWrite] at this

/-- C4, amended: when the outer `select` takes the `done` case, and so whenever `done` is
closed while neither a tick nor an interrupt is waiting, the control loop returns at once and
nothing, in particular no `WriteMessage`, follows in its trace. -/
theorem done_case_returns_without_send (lib : Lib) (env : Env) (fuel k w : Nat)
    (pre post : List Event) (s : Select)
    (h : (controlLoop lib env fuel k w).1 = pre ++ .select s :: post)
    (hs : (∃ tk i, s = .done tk i) ∨
      (s.doneReady = true ∧ s.tickReady = false ∧ s.interruptReady = false)) :
    post = [] ∧ (controlLoop lib env fuel k w).2 = true := by
  have hd : ∃ tk i, s = .done tk i := by
    rcases hs with hs | ⟨_, h2, h3⟩
    · exact hs
    · cases s with
      | done tk i => exact ⟨tk, i, rfl⟩
      | tick t d i => simp [Select.tickReady] at h2
      | interrupt d tk => simp [Select.interruptReady] at h3
  obtain ⟨tk, i, rfl⟩ := hd
  have := controlLoop_at_select lib env fuel k w pre post _ h
  simpa only [AfterSelect] using this

/-- Witness of C4, amended: the second `select` of the race finds only `done` ready. -/
theorem done_case_returns_without_send_witness :
    ([] : List Event) = [] ∧ (controlLoop demoLib raceEnv 2 0 0).2 = true :=
  done_case_returns_without_send demoLib raceEnv 2 0 0
    [.select (.tick 5000000000 true false), .log (.text "<-ticker.C"),
      .write TextMessage (stringBytes (demoLib.timeString 5000000000)) none]
    [] (.done none false) rfl (Or.inr ⟨rfl, rfl, rfl⟩)

/-- C6: when the write of the close frame fails, the control loop logs the error and
returns: no wait on `done` or on the timer, no second close frame, no other write. -/
theorem close_frame_failure_terminates (lib : Lib) (env : Env) (fuel k w : Nat)
    (pre post : List Event) (p : Bytes) (e : Err)
    (h : (controlLoop lib env fuel k w).1 = pre ++ .write CloseMessage p (some e) :: post) :
    (controlLoop lib env fuel k w).2 = true ∧ post = [.log (.err "write close:" e)] ∧
      ∀ x ∈ post, x.isWait = false ∧ x.isWrite = false ∧ x.isSelect = false := by
  obtain ⟨hret, _, hpost⟩ := controlLoop_at_closeFrame lib env fuel k w pre post _ h
    (by simp [Event.isCloseFrame])
  rcases hpost with ⟨e1, hx, hp⟩ | ⟨hx, _⟩
  · simp only [Event.write.injEq, Option.some.injEq] at hx
    obtain ⟨_, _, rfl⟩ := hx
    subst hp
    exact ⟨hret, rfl, by simp [Event.isWait, Event.isWrite, Event.isSelect]⟩
  · simp at hx

/-- Witness of C6: the operator interrupts at once and the close frame meets a broken pipe. -/
theorem close_frame_failure_terminates_witness :
    (controlLoop demoLib closeFailEnv 3 0 0).2 = true ∧
      [Event.log (.err "write close:" "write: broken pipe")] =
        [.log (.err "write close:" "write: broken pipe")] ∧
      ∀ x ∈ [Event.log (.err "write close:" "write: broken pipe")],
        x.isWait = false ∧ x.isWrite = false ∧ x.isSelect = false :=
  close_frame_failure_terminates demoLib closeFailEnv 3 0 0
    [.select (.interrupt false none), .log (.text "interrupt")] _
    (demoLib.FormatCloseMessage CloseNormalClosure "") "write: broken pipe" rfl

theorem controlLoop_tickFail_run :
    controlLoop demoLib tickFailEnv 5 0 0 =
      ([.select (.tick 5000000000 false false), .log (.text "<-ticker.C"),
        .write 1 (stringBytes (demoLib.timeString 5000000000)) none,
        .select (.tick 10000000000 false false), .log (.text "<-ticker.C"),
        .write 1 (stringBytes (demoLib.timeString 10000000000)) (some "write: broken pipe"),
        .log (.err "write:" "write: broken pipe")], true) := by
  rfl

/-- C8: once the control loop has taken the interrupt case it returns in that iteration, so
no later `select` follows; a close frame, if written, has no write after it and no close
frame before it, so the trace has at most one close frame and no heartbeat after it; and the
loop has returned as soon as the environment delivers an interrupt to a `select` it
reaches. -/
theorem close_frame_is_last_write (lib : Lib) (env : Env) (fuel k w : Nat) :
    (∀ pre d tk post,
        (controlLoop lib env fuel k w).1 = pre ++ .select (.interrupt d tk) :: post →
        (controlLoop lib env fuel k w).2 = true ∧ ∀ x ∈ post, x.isSelect = false) ∧
    (∀ pre x post, (controlLoop lib env fuel k w).1 = pre ++ x :: post →
        x.isCloseFrame = true →
        (controlLoop lib env fuel k w).2 = true ∧ (∀ z ∈ post, z.isWrite = false) ∧
          ∀ z ∈ pre, z.isCloseFrame = false) ∧
    (controlLoop lib env fuel k w).1.countP Event.isCloseFrame ≤ 1 ∧
    (∀ j, k ≤ j → j < k + fuel → (∃ d tk, env.selects j = .interrupt d tk) →
        (controlLoop lib env fuel k w).2 = true) := by
  have hcf : ∀ pre x post, (controlLoop lib env fuel k w).1 = pre ++ x :: post →
      x.isCloseFrame = true →
      (controlLoop lib env fuel k w).2 = true ∧ (∀ z ∈ post, z.isWrite = false) ∧
        ∀ z ∈ pre, z.isCloseFrame = false := by
    intro pre x post h hx
    obtain ⟨hret, hpre, hpost⟩ := controlLoop_at_closeFrame lib env fuel k w pre post x h hx
    refine ⟨hret, ?_, hpre⟩
    rcases hpost with ⟨e, _, rfl⟩ | ⟨_, rfl⟩ <;> simp [Event.isWrite]
  refine ⟨?_, hcf, ?_, ?_⟩
  · intro pre d tk post h
    have hs := controlLoop_at_select lib env fuel k w pre post _ h
    simp only [AfterSelect] at hs
    obtain ⟨hret, hpost⟩ := hs
    refine ⟨hret, ?_⟩
    rcases hpost with ⟨e, rfl⟩ | rfl <;> simp [Event.isSelect]
  · by_cases hex : ∃ x ∈ (controlLoop lib env fuel k w).1, x.isCloseFrame = true
    · obtain ⟨x, hx, hxc⟩ := hex
      obtain ⟨pre, post, hcut⟩ := List.append_of_mem hx
      obtain ⟨_, hpost, hpre⟩ := hcf pre x post hcut hxc
      rw [hcut, List.countP_append, List.countP_cons, List.countP_eq_zero.2,
        List.countP_eq_zero.2]
      · simp [hxc]
      · intro z hz hzc
        have := hpost z hz
        rw [isWrite_of_isCloseFrame z hzc] at this
        cases this
      · intro z hz
        simp [hpre z hz]
    · rw [List.countP_eq_zero.2]
      · exact Nat.zero_le _
      · intro z hz hzc
        exact hex ⟨z, hz, hzc⟩
  · intro j hk hj hf
    exact controlLoop_returns lib env fuel k w j hk hj (Or.inr (Or.inl hf))

/-- Witness of C8 on the scenario: the interrupt comes at the second `select`; the close
frame that follows has no write after it, and the loop has returned. -/
theorem close_frame_is_last_write_witness :
    ((controlLoop demoLib demoEnv 5 0 0).2 = true ∧
        (∀ z ∈ [Event.wait .done 20000000, .log (.text "<-done")], z.isWrite = false) ∧
        ∀ z ∈ [Event.select (.tick 5000000000 false false), .log (.text "<-ticker.C"),
            .write 1 (stringBytes (demoLib.timeString 5000000000)) none,
            .select (.interrupt false none), .log (.text "interrupt")],
          z.isCloseFrame = false) ∧
      (controlLoop demoLib demoEnv 5 0 0).2 = true :=
  ⟨(close_frame_is_last_write demoLib demoEnv 5 0 0).2.1
      [.select (.tick 5000000000 false false), .log (.text "<-ticker.C"),
        .write 1 (stringBytes (demoLib.timeString 5000000000)) none,
        .select (.interrupt false none), .log (.text "interrupt")]
      (.write 8 (demoLib.FormatCloseMessage 1000 "") none) _ rfl rfl,
    (close_frame_is_last_write demoLib demoEnv 5 0 0).2.2.2 1 (by decide) (by decide)
      ⟨false, none, rfl⟩⟩

/-- The events of the reader before its last read: messages read and logged. -/
theorem reader_shape (env : Env) (fuel k : Nat) :
    ∃ body, (∀ x ∈ body, x.isReadOk = true ∨ ∃ m, x = .log (.recv m)) ∧
      (((reader env fuel k).2 = false ∧ (reader env fuel k).1 = body) ∨
        ((reader env fuel k).2 = true ∧ ∃ e, (reader env fuel k).1 =
          body ++ [.read (.err e), .log (.err "read:" e), .closeDone])) := by
  induction fuel generalizing k with
  | zero => exact ⟨[], by simp, Or.inl ⟨rfl, rfl⟩⟩
  | succ fuel ih =>
    unfold reader
    cases hr : env.reads k with
    | err e => exact ⟨[], by simp, Or.inr ⟨rfl, e, rfl⟩⟩
    | ok mt message =>
      obtain ⟨body, hb, hcase⟩ := ih (k + 1)
      refine ⟨.read (.ok mt message) :: .log (.recv message) :: body, ?_, ?_⟩
      · intro x hx
        simp only [List.mem_cons] at hx
        rcases hx with rfl | rfl | hx
        · exact Or.inl rfl
        · exact Or.inr ⟨_, rfl⟩
        · exact hb x hx
      · rcases hcase with ⟨h1, h2⟩ | ⟨h1, e, h2⟩
        · exact Or.inl ⟨h1, by simp [h2]⟩
        · exact Or.inr ⟨h1, e, by simp [h2]⟩

theorem reader_returns (env : Env) (fuel k j : Nat) (hk : k ≤ j) (hj : j < k + fuel)
    (hf : ∃ e, env.reads j = .err e) : (reader env fuel k).2 = true := by
  induction fuel generalizing k with
  | zero => omega
  | succ fuel ih =>
    unfold reader
    cases hr : env.reads k with
    | err e => rfl
    | ok mt message =>
      have hne : k ≠ j := by
        rintro rfl
        obtain ⟨e, he⟩ := hf
        rw [hr] at he
        cases he
      exact ih (k + 1) (by omega) (by omega)

theorem reader_demo_run :
    reader demoEnv 3 0 =
      ([.read (.ok 1 [104, 101, 108, 108, 111]), .log (.recv [104, 101, 108, 108, 111]),
        .read (.err "websocket: close 1000 (normal)"),
        .log (.err "read:" "websocket: close 1000 (normal)"), .closeDone], true) := by
  rfl

theorem doneClosed_iff (tr : List Event) : doneClosed tr = true ↔ Event.closeDone ∈ tr := by
  simp [doneClosed]

theorem reader_delivered_err (env : Env) (ms : List (Int × Bytes)) (e : Err) (fuel k : Nat)
    (hlen : ms.length < fuel)
    (hd : ∀ i m, ms[i]? = some m → env.reads (k + i) = .ok m.1 m.2)
    (he : env.reads (k + ms.length) = .err e) :
    reader env fuel k =
      (readEvents ms ++ [.read (.err e), .log (.err "read:" e), .closeDone], true) := by
  induction ms generalizing fuel k with
  | nil =>
    cases fuel with
    | zero => simp at hlen
    | succ fuel =>
      simp only [List.length_nil, Nat.add_zero] at he
      unfold reader
      simp only [he, readEvents, List.nil_append]
  | cons m ms ih =>
    cases fuel with
    | zero => simp at hlen
    | succ fuel =>
      have hr := hd 0 m (by simp)
      simp only [Nat.add_zero] at hr
      have hrest := ih fuel (k + 1) (by simpa using hlen)
        (fun i x hx => by
          have := hd (i + 1) x (by simpa using hx)
          rwa [show k + (i + 1) = k + 1 + i by omega] at this)
        (by
          rw [show k + 1 + ms.length = k + (m :: ms).length by
            simp only [List.length_cons]; omega]
          exact he)
      unfold reader
      simp only [hr, hrest, readEvents, List.cons_append]

theorem reader_delivered_running (env : Env) (ms : List (Int × Bytes)) (fuel k : Nat)
    (hlen : ms.length = fuel)
    (hd : ∀ i m, ms[i]? = some m → env.reads (k + i) = .ok m.1 m.2) :
    reader env fuel k = (readEvents ms, false) := by
  induction ms generalizing fuel k with
  | nil =>
    simp only [List.length_nil] at hlen
    subst hlen
    rfl
  | cons m ms ih =>
    cases fuel with
    | zero => simp at hlen
    | succ fuel =>
      have hr := hd 0 m (by simp)
      simp only [Nat.add_zero] at hr
      have hrest := ih fuel (k + 1) (by simpa using hlen)
        (fun i x hx => by
          have := hd (i + 1) x (by simpa using hx)
          rwa [show k + (i + 1) = k + 1 + i by omega] at this)
      unfold reader
      simp only [hr, hrest, readEvents]

theorem reader_exact (env : Env) (fuel k : Nat) :
    ∃ ms : List (Int × Bytes),
      (∀ i m, ms[i]? = some m → env.reads (k + i) = .ok m.1 m.2) ∧
      ((ms.length = fuel ∧ reader env fuel k = (readEvents ms, false)) ∨
        (ms.length < fuel ∧ ∃ e, env.reads (k + ms.length) = .err e ∧
          reader env fuel k =
            (readEvents ms ++ [.read (.err e), .log (.err "read:" e), .closeDone], true))) := by
  induction fuel generalizing k with
  | zero => exact ⟨[], by simp, Or.inl ⟨rfl, rfl⟩⟩
  | succ fuel ih =>
    cases hr : env.reads k with
    | err e =>
      refine ⟨[], by simp, Or.inr ⟨by simp, e, by simpa using hr, ?_⟩⟩
      unfold reader
      simp only [hr, readEvents, List.nil_append]
    | ok mt message =>
      obtain ⟨ms, hd, hcase⟩ := ih (k + 1)
      have hd1 : ∀ i m, ((mt, message) :: ms)[i]? = some m →
          env.reads (k + i) = .ok m.1 m.2 := by
        intro i m hm
        cases i with
        | zero =>
          simp only [List.getElem?_cons_zero, Option.some.injEq] at hm
          subst hm
          simpa using hr
        | succ i =>
          have := hd i m (by simpa using hm)
          rwa [show k + 1 + i = k + (i + 1) by omega] at this
      refine ⟨(mt, message) :: ms, hd1, ?_⟩
      rcases hcase with ⟨h1, _⟩ | ⟨h1, e, he, _⟩
      · exact Or.inl ⟨by simp [h1],
          reader_delivered_running env _ (fuel + 1) k (by simp [h1]) hd1⟩
      · have he1 : env.reads (k + ((mt, message) :: ms).length) = .err e := by
          rw [show k + ((mt, message) :: ms).length = k + 1 + ms.length by
            simp only [List.length_cons]; omega]
          exact he
        exact Or.inr ⟨by simpa using h1, e, he1,
          reader_delivered_err env _ e (fuel + 1) k (by simpa using h1) hd1 he1⟩

theorem reader_final (env : Env) (fuel n k : Nat) (hn : fuel ≤ n)
    (hret : (reader env fuel k).2 = true) : reader env n k = reader env fuel k := by
  induction fuel generalizing n k with
  | zero => simp [reader] at hret
  | succ fuel ih =>
    cases n with
    | zero => omega
    | succ n =>
      unfold reader at hret ⊢
      cases hr : env.reads k with
      | err e => rfl
      | ok mt message =>
        simp only [hr] at hret ⊢
        rw [ih n (k + 1) (by omega) hret]

theorem reader_extends (env : Env) (fuel n k : Nat) (hn : fuel ≤ n) :
    (reader env fuel k).1 <+: (reader env n k).1 := by
  induction fuel generalizing n k with
  | zero => exact List.nil_prefix
  | succ fuel ih =>
    cases n with
    | zero => omega
    | succ n =>
      unfold reader
      cases hr : env.reads k with
      | err e => exact List.prefix_refl _
      | ok mt message =>
        simp only
        exact (List.prefix_cons_inj _).2 ((List.prefix_cons_inj _).2 (ih n (k + 1) (by omega)))

/-- C10: the reader goroutine reads one message at a time and logs it: for the messages the
connection delivers, its trace is one `ReadMessage` and one log line per message, in order,
and nothing else, so it never writes and never closes the connection.  It returns at its
first failed read, which is followed by the log line and `close(done)` only; `close(done)`
happens once if the goroutine has returned and not at all before, and it is the last event.
A goroutine that has closed `done` does nothing more: every later state has the same trace,
so `done` stays closed and no read follows the failed one.  The goroutine is started once by
`main` and does not start another. -/
theorem reader_signals_done_once (env : Env) (fuel k : Nat) :
    (∀ x ∈ (reader env fuel k).1, x.isWrite = false ∧ x ≠ .close ∧ x ≠ .go) ∧
    (∀ lib n, (main lib env n).1.count .go ≤ 1) ∧
    ((reader env fuel k).1.count .closeDone = if (reader env fuel k).2 then 1 else 0) ∧
    ((reader env fuel k).2 = true → ∃ body e,
        (reader env fuel k).1 = body ++ [.read (.err e), .log (.err "read:" e), .closeDone] ∧
          ∀ x ∈ body, x.isFailure = false ∧ x ≠ .closeDone) ∧
    ((reader env fuel k).2 = false →
        ∀ x ∈ (reader env fuel k).1, x.isFailure = false ∧ x ≠ .closeDone) ∧
    (∀ p, p <+: (reader env fuel k).1 → doneClosed p = true →
        p = (reader env fuel k).1 ∧ (reader env fuel k).2 = true) ∧
    (∀ n, fuel ≤ n → (reader env fuel k).1 <+: (reader env n k).1 ∧
        (doneClosed (reader env fuel k).1 = true →
          reader env n k = reader env fuel k ∧ doneClosed (reader env n k).1 = true)) ∧
    (∀ j, k ≤ j → j < k + fuel → (∃ e, env.reads j = .err e) →
        (reader env fuel k).2 = true) ∧
    (∀ (ms : List (Int × Bytes)) (e : Err), ms.length < fuel →
        (∀ i m, ms[i]? = some m → env.reads (k + i) = .ok m.1 m.2) →
        env.reads (k + ms.length) = .err e →
        reader env fuel k =
          (readEvents ms ++ [.read (.err e), .log (.err "read:" e), .closeDone], true)) ∧
    (∀ ms : List (Int × Bytes), ms.length = fuel →
        (∀ i m, ms[i]? = some m → env.reads (k + i) = .ok m.1 m.2) →
        reader env fuel k = (readEvents ms, false)) ∧
    (∃ ms : List (Int × Bytes),
      (∀ i m, ms[i]? = some m → env.reads (k + i) = .ok m.1 m.2) ∧
      ((ms.length = fuel ∧ reader env fuel k = (readEvents ms, false)) ∨
        (ms.length < fuel ∧ ∃ e, env.reads (k + ms.length) = .err e ∧
          reader env fuel k =
            (readEvents ms ++ [.read (.err e), .log (.err "read:" e), .closeDone],
              true)))) := by
  obtain ⟨body, hb, hcase⟩ := reader_shape env fuel k
  have hbody : ∀ x ∈ body,
      x.isWrite = false ∧ x ≠ .close ∧ x.isFailure = false ∧ x ≠ .closeDone ∧ x ≠ .go := by
    intro x hx
    rcases hb x hx with h | ⟨m, rfl⟩
    · cases x with
      | read r => cases r <;> simp_all [Event.isReadOk, Event.isWrite, Event.isFailure]
      | _ => simp [Event.isReadOk] at h
    · simp [Event.isWrite, Event.isFailure]
  have hlast : ∀ p, p <+: (reader env fuel k).1 → doneClosed p = true →
      p = (reader env fuel k).1 ∧ (reader env fuel k).2 = true := by
    intro p hp hd
    rw [doneClosed_iff] at hd
    rcases hcase with ⟨_, h2⟩ | ⟨h1, e, h2⟩
    · rw [h2] at hp
      exact absurd rfl (hbody _ (hp.subset hd)).2.2.2.1
    · refine ⟨?_, h1⟩
      have h3 : (reader env fuel k).1 =
          (body ++ [.read (.err e), .log (.err "read:" e)]) ++ [.closeDone] := by
        rw [h2]
        simp
      rw [h3] at hp ⊢
      rcases List.prefix_concat_iff.1 hp with h4 | h4
      · exact h4
      · have h5 := h4.subset hd
        rcases List.mem_append.1 h5 with h6 | h6
        · exact absurd rfl (hbody _ h6).2.2.2.1
        · simp at h6
  refine ⟨?_, ?_, ?_, ?_, ?_, hlast, ?_, ?_, ?_, ?_, reader_exact env fuel k⟩
  · intro x hx
    rcases hcase with ⟨_, h2⟩ | ⟨_, e, h2⟩
    · rw [h2] at hx
      exact ⟨(hbody x hx).1, (hbody x hx).2.1, (hbody x hx).2.2.2.2⟩
    · rw [h2] at hx
      rcases List.mem_append.1 hx with hx | hx
      · exact ⟨(hbody x hx).1, (hbody x hx).2.1, (hbody x hx).2.2.2.2⟩
      · simp only [List.mem_cons, List.mem_singleton, List.not_mem_nil, or_false] at hx
        rcases hx with rfl | rfl | rfl <;> simp [Event.isWrite]
  · intro lib n
    have hng : (controlLoop lib env n 0 0).1.count .go = 0 :=
      List.count_eq_zero.2 (fun hx => (controlLoop_no_release lib env n 0 0 _ hx).2.2 rfl)
    unfold main
    cases env.dial with
    | some e => simp [List.count_cons]
    | none =>
      cases hb : (controlLoop lib env n 0 0).2 <;>
        simp [hb, List.count_cons, List.count_append, hng]
  · rcases hcase with ⟨h1, h2⟩ | ⟨h1, e, h2⟩
    · rw [h1, h2]
      simp only [Bool.false_eq_true, if_false]
      exact List.count_eq_zero.2 (fun hx => (hbody _ hx).2.2.2.1 rfl)
    · rw [h1, h2, List.count_append,
        List.count_eq_zero.2 (fun hx => (hbody _ hx).2.2.2.1 rfl)]
      simp [List.count_cons]
  · intro hret
    rcases hcase with ⟨h1, _⟩ | ⟨_, e, h2⟩
    · rw [h1] at hret
      cases hret
    · exact ⟨body, e, h2, fun x hx => ⟨(hbody x hx).2.2.1, (hbody x hx).2.2.2.1⟩⟩
  · intro hret x hx
    rcases hcase with ⟨_, h2⟩ | ⟨h1, _⟩
    · rw [h2] at hx
      exact ⟨(hbody x hx).2.2.1, (hbody x hx).2.2.2.1⟩
    · rw [h1] at hret
      cases hret
  · intro n hn
    refine ⟨reader_extends env fuel n k hn, fun hd => ?_⟩
    have hfin := reader_final env fuel n k hn (hlast _ (List.prefix_refl _) hd).2
    exact ⟨hfin, by rw [hfin]; exact hd⟩
  · intro j hk hj hf
    exact reader_returns env fuel k j hk hj hf
  · intro ms e hlen hd he
    exact reader_delivered_err env ms e fuel k hlen hd he
  · intro ms hlen hd
    exact reader_delivered_running env ms fuel k hlen hd

/-- Witness of C10: the reader of the scenario reads and logs "hello", meets the failed read,
logs it and closes `done` as its last step; one iteration earlier `done` is still open, and
ten iterations later the trace is the same. -/
theorem reader_signals_done_once_witness :
    reader demoEnv 3 0 =
        (readEvents [(1, [104, 101, 108, 108, 111])] ++
          [.read (.err "websocket: close 1000 (normal)"),
            .log (.err "read:" "websocket: close 1000 (normal)"), .closeDone], true) ∧
      reader demoEnv 1 0 = (readEvents [(1, [104, 101, 108, 108, 111])], false) ∧
      (reader demoEnv 3 0).1.count .closeDone = (if (reader demoEnv 3 0).2 then 1 else 0) ∧
      (reader demoEnv 1 0).1.count .closeDone = (if (reader demoEnv 1 0).2 then 1 else 0) ∧
      (reader demoEnv 13 0 = reader demoEnv 3 0 ∧
        doneClosed (reader demoEnv 13 0).1 = true) :=
  ⟨(reader_signals_done_once demoEnv 3 0).2.2.2.2.2.2.2.2.1 [(1, [104, 101, 108, 108, 111])]
      "websocket: close 1000 (normal)" (by decide)
      (by
        intro i m hm
        match i, hm with
        | 0, hm => cases hm; rfl
        | _ + 1, hm => cases hm)
      rfl,
    (reader_signals_done_once demoEnv 1 0).2.2.2.2.2.2.2.2.2.1 [(1, [104, 101, 108, 108, 111])]
      rfl
      (by
        intro i m hm
        match i, hm with
        | 0, hm => cases hm; rfl
        | _ + 1, hm => cases hm),
    (reader_signals_done_once demoEnv 3 0).2.2.1,
    (reader_signals_done_once demoEnv 1 0).2.2.1,
    ((reader_signals_done_once demoEnv 3 0).2.2.2.2.2.2.1 13 (by decide)).2 rfl⟩

end Client

theorem echoLoop_no_close (env : Server.Env) (fuel k : Nat) :
    ∀ x ∈ (Server.echoLoop env fuel k).1, x ≠ .close := by
  induction fuel generalizing k with
  | zero => simp [Server.echoLoop]
  | succ fuel ih =>
    unfold Server.echoLoop
    cases hr : env.reads k with
    | err e => simp
    | ok mt message =>
      cases hw : env.writes k with
      | some e => simp
      | none =>
        simp only [List.mem_cons]
        rintro x (rfl | rfl | rfl | hx)
        · simp
        · simp
        · simp
        · exact ih _ x hx

/-- C9: a goroutine that owns a connection releases it exactly once when its loop exits.  A
run of `echo` that upgraded and has returned ends with its only `Close`, and it returns when
a read or a write fails; a run of the client `main` that dialled and has returned ends with
its only `ticker.Stop()` followed by its only `Close`, and it returns through the `done`
case, a failed heartbeat, a failed close frame or the end of the interrupt case.  Before the
loop exits nothing is released. -/
theorem connection_released_exactly_once :
    (∀ (env : Server.Env) (fuel : Nat), env.upgrade = none →
        ((Server.echo env fuel).2 = true →
          (Server.echo env fuel).1.count .close = 1 ∧
            ∃ body, (Server.echo env fuel).1 = body ++ [.close]) ∧
        ((Server.echo env fuel).2 = false → (Server.echo env fuel).1.count .close = 0) ∧
        (∀ j, j < fuel → ((∃ e, env.reads j = .err e) ∨ (∃ e, env.writes j = some e)) →
          (Server.echo env fuel).2 = true)) ∧
    (∀ (lib : Lib) (env : Client.Env) (fuel : Nat), env.dial = none →
        ((Client.main lib env fuel).2 = true →
          (Client.main lib env fuel).1.count .close = 1 ∧
            (Client.main lib env fuel).1.count .tickerStop = 1 ∧
            ∃ body, (Client.main lib env fuel).1 = body ++ [.tickerStop, .close]) ∧
        ((Client.main lib env fuel).2 = false →
          (Client.main lib env fuel).1.count .close = 0 ∧
            (Client.main lib env fuel).1.count .tickerStop = 0) ∧
        (∀ j, j < fuel →
          ((∃ tk i, env.selects j = .done tk i) ∨ (∃ d tk, env.selects j = .interrupt d tk) ∨
            (∃ e, env.writes j = some e)) →
          (Client.main lib env fuel).2 = true)) := by
  constructor
  · intro env fuel hu
    rw [Server.echo_upgraded env fuel hu]
    have hnc : (Server.echoLoop env fuel 0).1.count .close = 0 :=
      List.count_eq_zero.2 (fun hx => echoLoop_no_close env fuel 0 _ hx rfl)
    refine ⟨?_, ?_, ?_⟩
    · intro hret
      simp only at hret
      simp only [hret, if_true]
      refine ⟨?_, .upgrade none :: (Server.echoLoop env fuel 0).1, by simp⟩
      simp [List.count_cons, List.count_append, hnc]
    · intro hret
      simp only at hret
      simp only [hret, Bool.false_eq_true, if_false, List.append_nil]
      simp [List.count_cons, hnc]
    · intro j hj hf
      exact Server.echoLoop_returns env fuel 0 j (Nat.zero_le _) (by omega) hf
  · intro lib env fuel hd
    have hnr := Client.controlLoop_no_release lib env fuel 0 0
    have hnc : (Client.controlLoop lib env fuel 0 0).1.count .close = 0 :=
      List.count_eq_zero.2 (fun hx => (hnr _ hx).1 rfl)
    have hnt : (Client.controlLoop lib env fuel 0 0).1.count .tickerStop = 0 :=
      List.count_eq_zero.2 (fun hx => (hnr _ hx).2.1 rfl)
    unfold Client.main
    rw [hd]
    cases hb : (Client.controlLoop lib env fuel 0 0).2 with
    | false =>
      simp only [hb, Bool.false_eq_true, if_false]
      refine ⟨by simp, fun _ => ?_, ?_⟩
      · simp [List.count_cons, hnc, hnt]
      · intro j hj hf
        have := Client.controlLoop_returns lib env fuel 0 0 j (Nat.zero_le _) (by omega)
          (by simpa using hf)
        rw [hb] at this
        cases this
    | true =>
      simp only [hb, if_true]
      refine ⟨fun _ => ⟨?_, ?_, _, rfl⟩, by simp, fun _ _ _ => trivial⟩
      · simp [List.count_cons, List.count_append, hnc]
      · simp [List.count_cons, List.count_append, hnt]

theorem main_demo_run :
    Client.main Client.demoLib Client.demoEnv 5 =
      ([.log (.connecting "localhost:8080"), .dial none, .go, .newTicker 5000000000,
        .select (.tick 5000000000 false false), .log (.text "<-ticker.C"),
        .write 1 (stringBytes (Client.demoLib.timeString 5000000000)) none,
        .select (.interrupt false none), .log (.text "interrupt"),
        .write 8 (Client.demoLib.FormatCloseMessage 1000 "") none,
        .wait .done 20000000, .log (.text "<-done"),
        .tickerStop, .close], true) := by
  rfl

/-- Witness of C9 on the scenario: the server and the client each end with one `Close`. -/
theorem connection_released_exactly_once_witness :
    ((Server.echo Server.demoEnv 4).1.count .close = 1 ∧
        ∃ body, (Server.echo Server.demoEnv 4).1 = body ++ [.close]) ∧
      ((Client.main Client.demoLib Client.demoEnv 5).1.count .close = 1 ∧
        (Client.main Client.demoLib Client.demoEnv 5).1.count .tickerStop = 1 ∧
        ∃ body, (Client.main Client.demoLib Client.demoEnv 5).1 =
          body ++ [.tickerStop, .close]) :=
  ⟨(connection_released_exactly_once.1 Server.demoEnv 4 rfl).1 rfl,
    (connection_released_exactly_once.2 Client.demoLib Client.demoEnv 5 rfl).1 rfl⟩

end Websocket
